import Mathlib

/-!
Shallow embedding of the raw IR pulse decoder from
`raw_ir_decoder/analyze_ir_pulses.py`, together with proofs of the
behavioural claims about it.

Conventions of the embedding:
* Python integers are modelled as `Int`; lists of timings as `List Int`.
* Python floats appear only as quotients of small integers (well inside
  the range where double arithmetic is exact for these comparisons and
  roundings), so each float value is carried exactly as a
  numerator/denominator pair of integers: `x / float(y)` compared against
  an integer `z` becomes a cross-multiplied integer comparison, and
  `round` (Python 2 rounds halves away from zero) becomes `pyRoundQ` on
  the pair.
* Every `assert`, `IndexError` and `ValueError` that the decoder can hit
  is modelled as an `Except Err` failure with a named error kind.
-/

namespace IRDecode

/-- Grouping threshold for pulse periods, in microseconds (source constant
`PulseGroupThreshold = 200`). -/
def PulseGroupThreshold : Int := 200

/-- Pulses longer than this are treated as inter-command delays (source
constant `MaxPulseLength = 15000`). -/
def MaxPulseLength : Int := 15000

/-- Failure kinds for the decoder.  Each corresponds to a concrete
`assert`/exception site in the source. -/
inductive Err where
  | indexError
  | insufficientData
  | sanityError
  | fpAssertFailed
  | toleranceViolation
  | emptyBitstream
  | inconsistentRepeat
  | invalidBoundary
  | malformedText
  deriving DecidableEq, Repr

instance {ε α : Type} [DecidableEq ε] [DecidableEq α] : DecidableEq (Except ε α) :=
  fun a b =>
    match a, b with
    | .ok x, .ok y => decidable_of_iff (x = y) (by simp)
    | .ok _, .error _ => .isFalse (fun h => Except.noConfusion h)
    | .error _, .ok _ => .isFalse (fun h => Except.noConfusion h)
    | .error e, .error f => decidable_of_iff (e = f) (by simp)

/-- Python 2 `round` applied to the exact rational `num / den`: round to
the nearest integer, halves away from zero.  (For a nonnegative value
this is `⌊num / den + 1 / 2⌋`.)  A zero denominator would be a
`ZeroDivisionError` in the source; all call sites are guarded. -/
def pyRoundPos (n d : Int) : Int :=
  if n < 0 then -((2 * -n + d) / (2 * d)) else (2 * n + d) / (2 * d)

/-- Round `num / den` for an arbitrary-sign denominator by normalizing
the sign into the numerator first. -/
def pyRoundQ (num den : Int) : Int :=
  if den < 0 then pyRoundPos (-num) (-den) else pyRoundPos num den

/-- Append a value to the last group (`groups[-1].append(p)`). -/
def appendToLast (p : Int) : List (List Int) → List (List Int)
  | [] => []
  | [g] => [g ++ [p]]
  | g :: gs => g :: appendToLast p gs

/-- The grouping loop of `find_fundamental_period`: walk the sorted
timings, breaking at the first pulse longer than `MaxPulseLength`,
appending to the current group when within threshold of its anchor `f`,
and starting a new group otherwise.  `groups[-1]` on an empty `groups`
raises `IndexError`. -/
def group_loop : List Int → List (List Int) → Int → Except Err (List (List Int))
  | [], groups, _ => .ok groups
  | p :: rest, groups, f =>
    if MaxPulseLength < p then .ok groups
    else if p ≤ f + PulseGroupThreshold then
      if groups = [] then .error .indexError
      else group_loop rest (appendToLast p groups) f
    else group_loop rest (groups ++ [[p]]) p

/-- Statistics of one pulse group: its minimum, its sum and length
(together the exact value of the float `avg = sum/float(len)`), and its
maximum. -/
structure GStat where
  minp : Int
  sumv : Int
  len : Nat
  maxp : Int
  deriving DecidableEq, Repr

/-- Per-group statistics with the source's sanity assertion
`group[0] <= avg <= group[-1]` (compared exactly by cross-multiplying
with the positive group length); `group[0]` on an empty group is an
`IndexError`. -/
def gstatOf (group : List Int) : Except Err GStat :=
  match group with
  | [] => .error .indexError
  | g0 :: rest =>
    if g0 * ((g0 :: rest).length : Int) ≤ (g0 :: rest).sum ∧
        (g0 :: rest).sum ≤ (g0 :: rest).getLastD 0 * ((g0 :: rest).length : Int) then
      .ok ⟨g0, (g0 :: rest).sum, (g0 :: rest).length, (g0 :: rest).getLastD 0⟩
    else .error .sanityError

/-- The `gstats` accumulation loop of `find_fundamental_period`. -/
def computeGstats : List (List Int) → Except Err (List GStat)
  | [] => .ok []
  | g :: gs =>
    match gstatOf g with
    | .error e => .error e
    | .ok st =>
      match computeGstats gs with
      | .error e => .error e
      | .ok rest => .ok (st :: rest)

/-- Truthiness of `float(fp) / PulseGroupThreshold`, the condition of the
source assertion whose message demands `fp` be at least twice the
grouping threshold: the quotient is zero exactly when `fp` is zero. -/
def fpAssertCond (fp : Int) : Bool :=
  decide (¬(mkRat fp PulseGroupThreshold.toNat = 0))

/-- The per-group verification of `find_fundamental_period`: round the
group average to the nearest multiple of `fp`
(`avg / float(fp) = sum / (len * fp)` exactly) and require min/max to
stay within the threshold band. -/
def checkGroup (fp : Int) (st : GStat) : Except Err Unit :=
  if st.minp < pyRoundQ st.sumv ((st.len : Int) * fp) * fp - PulseGroupThreshold then
    .error .toleranceViolation
  else if pyRoundQ st.sumv ((st.len : Int) * fp) * fp + PulseGroupThreshold < st.maxp then
    .error .toleranceViolation
  else .ok ()

/-- Run `checkGroup` over all group statistics. -/
def checkGroups (fp : Int) : List GStat → Except Err Unit
  | [] => .ok ()
  | st :: rest =>
    match checkGroup fp st with
    | .error e => .error e
    | .ok _ => checkGroups fp rest

/-- `find_fundamental_period(timings)`: sort, group, check the
groups-to-samples ratio, compute group statistics, take the first group's
average (rounded) as the fundamental period, assert its truthiness, and
verify every group against it. -/
def find_fundamental_period (timings : List Int) : Except Err Int :=
  match group_loop (List.insertionSort (· ≤ ·) timings) [] 0 with
  | .error e => .error e
  | .ok groups =>
    if timings.length / 5 < groups.length then .error .insufficientData
    else
      match computeGstats groups with
      | .error e => .error e
      | .ok gstats =>
        match gstats with
        | [] => .error .indexError
        | st0 :: _ =>
          if fpAssertCond (pyRoundQ st0.sumv (st0.len : Int)) then
            match checkGroups (pyRoundQ st0.sumv (st0.len : Int)) gstats with
            | .error e => .error e
            | .ok _ => .ok (pyRoundQ st0.sumv (st0.len : Int))
          else .error .fpAssertFailed

/-- `bit = (bit + 1) % 2`: toggle the current polarity bit. -/
def flipBit (b : Int) : Int := (b + 1) % 2

/-- The quantization step of `binarify_signal`:
`p = int(round(t / float(fp)))` followed by the two tolerance
assertions. -/
def quantize (fp t : Int) : Except Err Int :=
  if t < pyRoundQ t fp * fp - PulseGroupThreshold then .error .toleranceViolation
  else if pyRoundQ t fp * fp + PulseGroupThreshold < t then .error .toleranceViolation
  else .ok (pyRoundQ t fp)

/-- The main loop of `binarify_signal`, carrying the loop state
`(ret, bits, bit, interval)`. -/
def binLoop (fp : Int) :
    List Int → List (List Int) → List Int → Int → Int →
    Except Err (List (List Int) × List Int × Int × Int)
  | [], ret, bits, bit, interval => .ok (ret, bits, bit, interval)
  | t :: rest, ret, bits, bit, interval =>
    if MaxPulseLength < t then
      binLoop fp rest (ret ++ [bits]) [] (flipBit bit)
        (if interval = 0 ∨ t < interval then t else interval)
    else
      match quantize fp t with
      | .error e => .error e
      | .ok p =>
        binLoop fp rest ret (bits ++ List.replicate p.toNat (flipBit bit)) (flipBit bit) interval

/-- The tail of `binarify_signal` after the loop: the source's
`assert ret` and per-stream `assert r` (both yield empty-bitstream
failures). -/
def binPost (ret2 : List (List Int)) (interval : Int) :
    Except Err (List (List Int) × Int) :=
  if ret2 = [] then .error .emptyBitstream
  else if ret2.all (fun r => !r.isEmpty) then .ok (ret2, interval)
  else .error .emptyBitstream

/-- `binarify_signal(fp, timings)`: run the loop, flush a trailing
non-empty bitstream, and apply the final assertions. -/
def binarify_signal (fp : Int) (timings : List Int) :
    Except Err (List (List Int) × Int) :=
  match binLoop fp timings [] [] 0 0 with
  | .error e => .error e
  | .ok (ret, bits, _bit, interval) =>
    binPost (if bits = [] then ret else ret ++ [bits]) interval

/-- The decoded command: fundamental period, bitstream, inter-repetition
interval and repeat count. -/
structure IRCommand where
  fp : Int
  bits : List Int
  interval : Int
  repeats : Int
  deriving DecidableEq, Repr

/-- The `IRCommand.__init__` constructor with its boundary assertion
`self.bits[0] == 1 and self.bits[-1] == 1` (on empty bits, `bits[0]`
raises `IndexError`). -/
def mkIRCommand (fp : Int) (bits : List Int) (interval : Int) (repeats : Int) :
    Except Err IRCommand :=
  match bits with
  | [] => .error .indexError
  | b0 :: rest =>
    if b0 = 1 ∧ (b0 :: rest).getLastD 0 = 1 then .ok ⟨fp, bits, interval, repeats⟩
    else .error .invalidBoundary

/-- A command is valid when the source constructor accepts exactly its
fields. -/
def validCmd (c : IRCommand) : Prop :=
  mkIRCommand c.fp c.bits c.interval c.repeats = .ok c

instance (c : IRCommand) : Decidable (validCmd c) := by
  unfold validCmd; infer_instance

/-- `IRCommand.from_timings`: find the fundamental period, binarify, pop
the first bitstream, require all others to equal it, and construct the
command with `repeats = len(bitstreams) + 1` (length after the pop). -/
def IRCommand.from_timings (timings : List Int) : Except Err IRCommand :=
  match find_fundamental_period timings with
  | .error e => .error e
  | .ok fp =>
    match binarify_signal fp timings with
    | .error e => .error e
    | .ok (bitstreams, interval) =>
      match bitstreams with
      | [] => .error .indexError
      | bitstream :: rest =>
        if rest.all (fun b => decide (b = bitstream)) then
          mkIRCommand fp bitstream interval ((rest.length : Int) + 1)
        else .error .inconsistentRepeat

/-- The loop of `IRCommand.timings()`, carrying `(prev, t, ret)`. -/
def timingsLoop (fp : Int) : List Int → Int → Int → List Int → (List Int × Int × Int)
  | [], prev, t, ret => (ret, t, prev)
  | b :: bs, prev, t, ret =>
    if b = prev then timingsLoop fp bs prev (t + fp) ret
    else timingsLoop fp bs b fp (ret ++ [t])

/-- `IRCommand.timings()`: re-expand the bitstream into pulse lengths
(merging same-polarity runs), assert the final polarity is 1, and append
the final run length and the stored interval. -/
def IRCommand.timings (c : IRCommand) : Except Err (List Int) :=
  if (timingsLoop c.fp c.bits 1 0 []).2.2 = 1 then
    .ok ((timingsLoop c.fp c.bits 1 0 []).1 ++ [(timingsLoop c.fp c.bits 1 0 []).2.1, c.interval])
  else .error .sanityError

/-- Characters stripped by Python's `str.strip()`. -/
def pyIsSpace (c : Char) : Bool :=
  c = ' ' ∨ c = '\t' ∨ c = '\n' ∨ c = '\r' ∨ c = '\x0b' ∨ c = '\x0c'

/-- Python `str.strip()`: drop whitespace from both ends. -/
def pyStrip (l : List Char) : List Char :=
  ((l.dropWhile pyIsSpace).reverse.dropWhile pyIsSpace).reverse

/-- Numeric value of a decimal digit character. -/
def digitVal (c : Char) : Int := (c.toNat : Int) - (('0'.toNat : Nat) : Int)

/-- Parse a non-empty all-digit string into its value. -/
def parseDigits (l : List Char) : Option Int :=
  if l = [] then none
  else if l.all Char.isDigit then
    some (l.foldl (fun acc c => acc * 10 + digitVal c) 0)
  else none

/-- The body of Python `int(s)` after stripping: allow one sign, then
decimal digits; anything else is a `ValueError` (modelled as malformed
text). -/
def pyIntCore : List Char → Except Err Int
  | [] => .error .malformedText
  | c :: rest =>
    if c = '-' then
      match parseDigits rest with
      | some n => .ok (-n)
      | none => .error .malformedText
    else if c = '+' then
      match parseDigits rest with
      | some n => .ok n
      | none => .error .malformedText
    else
      match parseDigits (c :: rest) with
      | some n => .ok n
      | none => .error .malformedText

/-- Python `int(s)`: strip whitespace, then parse. -/
def pyInt (s : List Char) : Except Err Int := pyIntCore (pyStrip s)

/-- Python `str.split(sep)` for a one-character separator: no merging of
adjacent separators, empty parts preserved. -/
def splitOnChar (sep : Char) : List Char → List (List Char)
  | [] => [[]]
  | c :: rest =>
    match splitOnChar sep rest with
    | [] => [[]]
    | p :: ps => if c = sep then [] :: p :: ps else (c :: p) :: ps

/-- Fuel-driven digit rendering; the fuel always suffices when it
exceeds the number being rendered. -/
def natReprAux : Nat → Nat → List Char
  | 0, _ => []
  | fuel + 1, n =>
    if n < 10 then [Nat.digitChar n]
    else natReprAux fuel (n / 10) ++ [Nat.digitChar (n % 10)]

/-- Decimal rendering of a natural number, as produced by `"%u"`. -/
def natRepr (n : Nat) : List Char := natReprAux (n + 1) n

/-- Decimal rendering of an integer (Python's `%u` formats negative ints
with a minus sign, like `%d`). -/
def intRepr (n : Int) : List Char :=
  if n < 0 then '-' :: natRepr n.natAbs else natRepr n.toNat

/-- The fixed prefix `"<IRCommand: "` of the text form. -/
def tagChars : List Char := "<IRCommand: ".data

/-- The `" x "` separator of the text form. -/
def sepChars : List Char := " x ".data

/-- `IRCommand.bitstream()`: the bits, each rendered by `str`, joined. -/
def IRCommand.bitstream (c : IRCommand) : List Char :=
  (c.bits.map intRepr).flatten

/-- `IRCommand.__str__`: `"<IRCommand: %u/%s/%u x %u>"`. -/
def IRCommand.str (c : IRCommand) : List Char :=
  tagChars ++ (intRepr c.fp ++ ('/' :: (c.bitstream ++ ('/' ::
    (intRepr c.interval ++ (sepChars ++ (intRepr c.repeats ++ ['>'])))))))

/-- Parse the bitstream field: `map(int, list(bits))`. -/
def parseBits : List Char → Except Err (List Int)
  | [] => .ok []
  | c :: rest =>
    match pyInt [c] with
    | .error e => .error e
    | .ok b =>
      match parseBits rest with
      | .error e => .error e
      | .ok bs => .ok (b :: bs)

/-- The body of `IRCommand.from_string` applied to the stripped input:
check the `"<IRCommand: "` prefix and `">"` suffix, split the interior on
`"x"` into exactly two parts and the data on `"/"` into exactly three,
parse the numeric fields, and run the constructor. -/
def fromStringCore (s : List Char) : Except Err IRCommand :=
  if s.take 12 = tagChars then
    if s.getLast? = some '>' then
      match splitOnChar 'x' ((s.drop 12).dropLast) with
      | [data, reps] =>
        match splitOnChar '/' (pyStrip data) with
        | [fpS, bitsS, pauseS] =>
          match pyInt fpS with
          | .error e => .error e
          | .ok fp =>
            match parseBits bitsS with
            | .error e => .error e
            | .ok bits =>
              match pyInt (pyStrip pauseS) with
              | .error e => .error e
              | .ok pause =>
                match pyInt (pyStrip reps) with
                | .error e => .error e
                | .ok reps2 => mkIRCommand fp bits pause reps2
        | _ => .error .malformedText
      | _ => .error .malformedText
    else .error .malformedText
  else .error .malformedText

/-- `IRCommand.from_string`: strip the input, then run the core parser. -/
def IRCommand.from_string (s0 : List Char) : Except Err IRCommand :=
  fromStringCore (pyStrip s0)

/-- Run lengths of maximal blocks of equal adjacent values. -/
def runsOf : List Int → List Nat
  | [] => []
  | [_] => [1]
  | a :: b :: rest =>
    if a = b then
      match runsOf (b :: rest) with
      | r :: rs => (r + 1) :: rs
      | [] => [1]
    else 1 :: runsOf (b :: rest)

/-- Expand run lengths back into a list of alternating polarities,
starting with polarity `b`. -/
def expandRuns : List Nat → Int → List Int
  | [], _ => []
  | r :: rs, b => List.replicate r b ++ expandRuns rs (flipBit b)

/-- Iterate `flipBit`. -/
def flipIter : Nat → Int → Int
  | 0, b => b
  | n + 1, b => flipIter n (flipBit b)

/-- The bare text form claimed by the spec (no `<IRCommand: ...>` wrapper). -/
def c2BareText : List Char := "900/10101/20000x2".data

/-- The text form actually produced by the source serializer. -/
def c2FullText : List Char := "<IRCommand: 900/10101/20000 x 2>".data

/-- A valid one-repetition command whose re-expanded timing sequence the
decoder rejects. -/
def c1Cmd : IRCommand := ⟨900, [1, 1], 20000, 1⟩

/-! ## Helper lemmas about the error kinds each stage can produce -/

theorem group_loop_error_eq {l : List Int} {gs : List (List Int)} {f : Int} {e : Err}
    (h : group_loop l gs f = .error e) : e = .indexError := by
  induction l generalizing gs f with
  | nil => simp [group_loop] at h
  | cons p rest ih =>
    unfold group_loop at h
    split at h
    · exact absurd h (by simp)
    · split at h
      · split at h
        · injection h with h'
          exact h'.symm
        · exact ih h
      · exact ih h

theorem gstatOf_error_eq {g : List Int} {e : Err} (h : gstatOf g = .error e) :
    e = .indexError ∨ e = .sanityError := by
  unfold gstatOf at h
  split at h
  · injection h with h'
    exact Or.inl h'.symm
  · split at h
    · exact absurd h (by simp)
    · injection h with h'
      exact Or.inr h'.symm

theorem computeGstats_error_eq {gs : List (List Int)} {e : Err}
    (h : computeGstats gs = .error e) : e = .indexError ∨ e = .sanityError := by
  induction gs with
  | nil => simp [computeGstats] at h
  | cons g rest ih =>
    unfold computeGstats at h
    split at h
    · rename_i heq
      injection h with h'
      subst h'
      exact gstatOf_error_eq heq
    · split at h
      · rename_i heq
        injection h with h'
        subst h'
        exact ih heq
      · exact absurd h (by simp)

theorem checkGroup_error_eq {fp : Int} {st : GStat} {e : Err}
    (h : checkGroup fp st = .error e) : e = .toleranceViolation := by
  unfold checkGroup at h
  split at h
  · injection h with h'
    exact h'.symm
  · split at h
    · injection h with h'
      exact h'.symm
    · exact absurd h (by simp)

theorem checkGroups_error_eq {fp : Int} {l : List GStat} {e : Err}
    (h : checkGroups fp l = .error e) : e = .toleranceViolation := by
  induction l with
  | nil => simp [checkGroups] at h
  | cons st rest ih =>
    unfold checkGroups at h
    split at h
    · rename_i heq
      injection h with h'
      subst h'
      exact checkGroup_error_eq heq
    · exact ih h

/-! ## Claim C8: the concrete decode scenario -/

/-- C8: decoding `[900, 900, 900, 1800, 900, 20000, 900, 900, 900, 1800,
900]` succeeds with fundamental period 900, bits `[1, 0, 1, 0, 0, 1]`,
interval 20000 and 2 repeats. -/
theorem c8_concrete_decode :
    IRCommand.from_timings [900, 900, 900, 1800, 900, 20000, 900, 900, 900, 1800, 900] =
      .ok ⟨900, [1, 0, 1, 0, 0, 1], 20000, 2⟩ := by
  decide

/-! ## Claim C2: the canonical text form -/

/-- C2 counterexample: parsing the bare text `"900/10101/20000x2"` fails,
because the source serializer wraps the text in `"<IRCommand: ... >"` and
`from_string` asserts that wrapper. -/
theorem c2_counterexample :
    IRCommand.from_string c2BareText = .error .malformedText := by
  decide

/-- C2 (amended): the canonical text form of an IRCommand is
`"<IRCommand: <fp>/<bits>/<interval> x <repeats>>"`; serializing the
command `{fp: 900, bits: [1,0,1,0,1], interval: 20000, repeats: 2}`
produces exactly `"<IRCommand: 900/10101/20000 x 2>"`, and parsing that
text succeeds and yields the command back. -/
theorem c2_text_form :
    IRCommand.str ⟨900, [1, 0, 1, 0, 1], 20000, 2⟩ = c2FullText ∧
    IRCommand.from_string c2FullText = .ok ⟨900, [1, 0, 1, 0, 1], 20000, 2⟩ := by
  decide

/-! ## Claim C1 counterexample -/

/-- C1 counterexample: the valid command `{fp: 900, bits: [1, 1],
interval: 20000, repeats: 1}` re-expands to the timings `[1800, 20000]`,
on which the decoder fails (the groups-to-samples ratio assertion
rejects it), so the round-trip does not hold for every valid command. -/
theorem c1_counterexample :
    validCmd c1Cmd ∧ c1Cmd.repeats = 1 ∧
    IRCommand.timings c1Cmd = .ok [1800, 20000] ∧
    IRCommand.from_timings [1800, 20000] = .error .insufficientData := by
  decide

/-! ## Claim C4 counterexample -/

/-- C4 counterexample: the estimator accepts the fundamental period 401
(from five pulses of 401 µs), yet the binarizer's tolerance check accepts
the timing `1 * 401 + 201 = 602` (quantizing it to two periods) instead
of rejecting it, refuting the claimed rejection of `m·fp + 201` for every
accepted `fp`. -/
theorem c4_counterexample :
    find_fundamental_period [401, 401, 401, 401, 401] = .ok 401 ∧
    quantize 401 (1 * 401 + 201) = .ok 2 ∧
    quantize 401 (1 * 401 + 201) ≠ .error .toleranceViolation := by
  decide

/-! ## Claim C9: the fundamental-period assertion is vacuous -/

/-- C9: the assertion whose message demands the fundamental period be at
least twice the grouping threshold never fails for a positive period:
its condition is the truthiness of `float(fp) / PulseGroupThreshold`,
which is nonzero for every `fp ≥ 1`; consequently the estimator accepts
candidate periods below `2 * PulseGroupThreshold = 400` µs, such as 300. -/
theorem c9_fp_assert_vacuous :
    (∀ fp : Int, 1 ≤ fp → fpAssertCond fp = true) ∧
    find_fundamental_period [300, 300, 300, 300, 300] = .ok 300 ∧
    (300 : Int) < 2 * PulseGroupThreshold := by
  refine ⟨?_, by decide, by decide⟩
  intro fp hfp
  unfold fpAssertCond
  simp only [decide_eq_true_eq]
  rw [Rat.mkRat_eq_zero (by decide)]
  omega

/-- Witness for C9 at the concrete period 300. -/
theorem c9_witness : fpAssertCond 300 = true :=
  c9_fp_assert_vacuous.1 300 (by norm_num)

/-! ## Claim C6: exactly when the ratio assertion trips -/

/-- C6: the period estimator fails with insufficient-data exactly when
the sorted single-pass grouping (which stops at the first pulse above
`MaxPulseLength`) succeeds and produces more than `len(timings) / 5`
groups, where the length counts all input timings. -/
theorem c6_insufficient_data_iff (timings : List Int) :
    find_fundamental_period timings = .error .insufficientData ↔
      ∃ groups, group_loop (List.insertionSort (· ≤ ·) timings) [] 0 = .ok groups ∧
        timings.length / 5 < groups.length := by
  constructor
  · intro h
    unfold find_fundamental_period at h
    split at h
    · rename_i e heq
      injection h with h'
      subst h'
      exact absurd (group_loop_error_eq heq) (by decide)
    · rename_i groups heq
      split at h
      · rename_i hr
        exact ⟨groups, heq, hr⟩
      · exfalso
        split at h
        · rename_i e heq2
          injection h with h'
          subst h'
          rcases computeGstats_error_eq heq2 with h1 | h1 <;> cases h1
        · split at h
          · injection h with h'
            cases h'
          · split at h
            · split at h
              · rename_i e heq3
                injection h with h'
                subst h'
                exact absurd (checkGroups_error_eq heq3) (by decide)
              · simp at h
            · injection h with h'
              cases h'
  · rintro ⟨groups, hok, hlt⟩
    unfold find_fundamental_period
    rw [hok]
    simp [hlt]

/-! ## Destructuring helpers for successful constructions -/

theorem getLastD_cons_eq_one_iff (b0 : Int) (rest : List Int) :
    (b0 :: rest).getLastD 0 = 1 ↔ (b0 :: rest).getLast? = some 1 := by
  rw [List.getLastD_eq_getLast?]
  cases h : (b0 :: rest).getLast? with
  | none => exact absurd (List.getLast?_eq_none_iff.1 h) (by simp)
  | some x => simp

theorem mkIRCommand_ok_destruct {fp : Int} {bits : List Int} {iv rp : Int} {c : IRCommand}
    (h : mkIRCommand fp bits iv rp = .ok c) :
    c = ⟨fp, bits, iv, rp⟩ ∧ bits.head? = some 1 ∧ bits.getLast? = some 1 := by
  unfold mkIRCommand at h
  split at h
  · simp at h
  · rename_i b0 rest
    split at h
    · rename_i hcond
      injection h with h'
      exact ⟨h'.symm, by simp [hcond.1], (getLastD_cons_eq_one_iff _ _).1 hcond.2⟩
    · simp at h

theorem from_timings_ok_destruct {ts : List Int} {c : IRCommand}
    (h : IRCommand.from_timings ts = .ok c) :
    ∃ fp b rest interval,
      find_fundamental_period ts = .ok fp ∧
      binarify_signal fp ts = .ok (b :: rest, interval) ∧
      (∀ s ∈ rest, s = b) ∧
      mkIRCommand fp b interval ((rest.length : Int) + 1) = .ok c := by
  unfold IRCommand.from_timings at h
  split at h
  · simp at h
  · rename_i fp heq
    split at h
    · simp at h
    · rename_i heq2
      split at h
      · simp at h
      · rename_i b rest
        split at h
        · rename_i hall
          refine ⟨fp, b, rest, _, heq, heq2, fun s hs => ?_, h⟩
          simpa using List.all_eq_true.1 hall s hs
        · simp at h

/-! ## Claim C7: boundary bits -/

/-- C7: constructing an `IRCommand` succeeds exactly when the bitstream
starts and ends with bit 1 (an empty bitstream also fails, via
`bits[0]`), and every command produced by the full decoder has a
bitstream starting and ending with 1. -/
theorem c7_boundary_bits :
    (∀ (fp : Int) (bits : List Int) (iv rp : Int),
        (mkIRCommand fp bits iv rp).isOk = true ↔
          bits.head? = some 1 ∧ bits.getLast? = some 1) ∧
    (∀ (ts : List Int) (c : IRCommand), IRCommand.from_timings ts = .ok c →
        c.bits.head? = some 1 ∧ c.bits.getLast? = some 1) := by
  constructor
  · intro fp bits iv rp
    constructor
    · intro h
      cases hmk : mkIRCommand fp bits iv rp with
      | error e => rw [hmk] at h; simp [Except.isOk, Except.toBool] at h
      | ok c => exact (mkIRCommand_ok_destruct hmk).2
    · rintro ⟨h1, h2⟩
      cases bits with
      | nil => simp at h1
      | cons b0 rest =>
        have hb0 : b0 = 1 := by simpa using h1
        simp only [mkIRCommand]
        rw [if_pos ⟨hb0, (getLastD_cons_eq_one_iff _ _).2 h2⟩]
        simp [Except.isOk, Except.toBool]
  · intro ts c h
    obtain ⟨fp, b, rest, interval, _, _, _, hmk⟩ := from_timings_ok_destruct h
    obtain ⟨hc, h1, h2⟩ := mkIRCommand_ok_destruct hmk
    subst hc
    exact ⟨h1, h2⟩

/-- Witness for C7: the constructor accepts bits `[1, 0, 1]`, and the
decoder output on a concrete input has boundary bits 1. -/
theorem c7_witness :
    (mkIRCommand 900 [1, 0, 1] 0 1).isOk = true ∧
    ([1, 0, 1, 0, 0, 1] : List Int).head? = some 1 ∧
    ([1, 0, 1, 0, 0, 1] : List Int).getLast? = some 1 :=
  ⟨(c7_boundary_bits.1 900 [1, 0, 1] 0 1).2 (by decide),
   c7_boundary_bits.2 [900, 900, 900, 1800, 900, 16000, 900, 900, 900, 1800, 900]
     ⟨900, [1, 0, 1, 0, 0, 1], 16000, 2⟩ (by decide)⟩

/-! ## Claim C5: repeat consistency -/

/-- C5: whenever the full decoder succeeds, every bitstream after the
first one found by the binarizer is bit-for-bit equal to the first, and
the returned repeat count is the number of bitstreams found; moreover,
two identical bitstreams separated by a gap above `MaxPulseLength`
decode with `repeats = 2`, while one differing bit in the second
bitstream makes the decode fail with the inconsistent-repeat error. -/
theorem c5_repeat_consistency :
    (∀ (ts : List Int) (c : IRCommand), IRCommand.from_timings ts = .ok c →
      ∃ fp b rest interval,
        find_fundamental_period ts = .ok fp ∧
        binarify_signal fp ts = .ok (b :: rest, interval) ∧
        (∀ s ∈ rest, s = b) ∧
        c.repeats = ((b :: rest).length : Int)) ∧
    IRCommand.from_timings [900, 900, 900, 1800, 900, 16000, 900, 900, 900, 1800, 900] =
      .ok ⟨900, [1, 0, 1, 0, 0, 1], 16000, 2⟩ ∧
    IRCommand.from_timings [900, 900, 900, 1800, 900, 16000, 900, 1800, 900, 900, 900] =
      .error .inconsistentRepeat := by
  refine ⟨?_, by decide, by decide⟩
  intro ts c h
  obtain ⟨fp, b, rest, interval, hfp, hbin, hall, hmk⟩ := from_timings_ok_destruct h
  obtain ⟨hc, -, -⟩ := mkIRCommand_ok_destruct hmk
  subst hc
  exact ⟨fp, b, rest, interval, hfp, hbin, hall, by simp⟩

/-- Witness for C5 at the concrete two-repetition input. -/
theorem c5_witness :
    ∃ fp b rest interval,
      find_fundamental_period [900, 900, 900, 1800, 900, 16000, 900, 900, 900, 1800, 900] =
        .ok fp ∧
      binarify_signal fp [900, 900, 900, 1800, 900, 16000, 900, 900, 900, 1800, 900] =
        .ok (b :: rest, interval) ∧
      (∀ s ∈ rest, s = b) ∧
      (⟨900, [1, 0, 1, 0, 0, 1], 16000, 2⟩ : IRCommand).repeats = ((b :: rest).length : Int) :=
  c5_repeat_consistency.1 [900, 900, 900, 1800, 900, 16000, 900, 900, 900, 1800, 900]
    ⟨900, [1, 0, 1, 0, 0, 1], 16000, 2⟩ (by decide)

/-! ## Claim C10: gap-free inputs give one repetition and zero interval -/

theorem binLoop_no_gap {fp : Int} {l : List Int} (hmax : ∀ t ∈ l, t ≤ MaxPulseLength) :
    ∀ {ret : List (List Int)} {bits : List Int} {bit iv : Int}
      {out : List (List Int) × List Int × Int × Int},
      binLoop fp l ret bits bit iv = .ok out → out.1 = ret ∧ out.2.2.2 = iv := by
  induction l with
  | nil =>
    intro ret bits bit iv out h
    unfold binLoop at h
    injection h with h'
    rw [← h']
    exact ⟨rfl, rfl⟩
  | cons t rest ih =>
    intro ret bits bit iv out h
    unfold binLoop at h
    split at h
    · rename_i hgt
      exact absurd (hmax t (by simp)) (by omega)
    · split at h
      · simp at h
      · exact ih (fun x hx => hmax x (by simp [hx])) h

theorem binPost_ok_destruct {ret2 : List (List Int)} {iv : Int}
    {streams : List (List Int)} {iv2 : Int}
    (h : binPost ret2 iv = .ok (streams, iv2)) :
    streams = ret2 ∧ iv2 = iv ∧ ret2 ≠ [] := by
  unfold binPost at h
  split at h
  · simp at h
  · rename_i hne
    split at h
    · injection h with h'
      rw [Prod.mk.injEq] at h'
      exact ⟨h'.1.symm, h'.2.symm, hne⟩
    · simp at h

theorem binarify_no_gap {fp : Int} {ts : List Int} {streams : List (List Int)} {iv : Int}
    (hmax : ∀ t ∈ ts, t ≤ MaxPulseLength)
    (h : binarify_signal fp ts = .ok (streams, iv)) :
    streams.length = 1 ∧ iv = 0 := by
  unfold binarify_signal at h
  split at h
  · simp at h
  · rename_i ret bits bit interval heq
    obtain ⟨h1, h2⟩ := binLoop_no_gap hmax heq
    simp only at h1 h2
    subst h1
    subst h2
    obtain ⟨hs, hiv, hne⟩ := binPost_ok_destruct h
    subst hs
    subst hiv
    by_cases hb2 : bits = []
    · rw [if_pos hb2] at hne
      exact absurd rfl hne
    · rw [if_neg hb2]
      exact ⟨rfl, rfl⟩

/-- C10: on any input with no timing above `MaxPulseLength`, a
successful decode returns one repetition and a zero interval (the
interval accumulator's initial value). -/
theorem c10_no_gap_single (ts : List Int) (c : IRCommand)
    (hmax : ∀ t ∈ ts, t ≤ MaxPulseLength)
    (h : IRCommand.from_timings ts = .ok c) :
    c.repeats = 1 ∧ c.interval = 0 := by
  obtain ⟨fp, b, rest, interval, _, hbin, _, hmk⟩ := from_timings_ok_destruct h
  obtain ⟨hlen, hiv⟩ := binarify_no_gap hmax hbin
  obtain ⟨hc, -, -⟩ := mkIRCommand_ok_destruct hmk
  subst hc
  have hr : rest = [] := by
    simp only [List.length_cons] at hlen
    exact List.eq_nil_of_length_eq_zero (by omega)
  subst hr
  subst hiv
  exact ⟨rfl, rfl⟩

/-- Witness for C10 on a gap-free five-pulse input. -/
theorem c10_witness :
    (⟨900, [1, 0, 1, 0, 1], 0, 1⟩ : IRCommand).repeats = 1 ∧
    (⟨900, [1, 0, 1, 0, 1], 0, 1⟩ : IRCommand).interval = 0 :=
  c10_no_gap_single [900, 900, 900, 900, 900] ⟨900, [1, 0, 1, 0, 1], 0, 1⟩
    (by decide) (by decide)

/-! ## Claim C4: the tolerance boundary -/

theorem pyRoundQ_eq (t fp r q : Int) (hfp : 0 < fp) (ht : 0 ≤ t)
    (hsplit : 2 * t + fp = r + q * (2 * fp)) (hr0 : 0 ≤ r) (hr1 : r < 2 * fp) :
    pyRoundQ t fp = q := by
  unfold pyRoundQ pyRoundPos
  rw [if_neg (by omega), if_neg (by omega), hsplit,
    Int.add_mul_ediv_right _ _ (by omega : 2 * fp ≠ 0),
    Int.ediv_eq_zero_of_lt hr0 hr1]
  omega

/-- C4 (amended): for every fundamental period `fp` accepted by the
estimator that is at least `2 * PulseGroupThreshold + 2 = 402` µs, and
every multiple `m ≥ 1`, the binarizer's tolerance check accepts a timing
of exactly `m·fp ± 200` (quantizing it to `m` periods) and rejects
`m·fp ± 201` with a tolerance violation.  (The bound 402 is forced by
the counterexample: for an accepted period of 400 or 401 µs the `±201`
timings are instead absorbed into a neighbouring multiple.) -/
theorem c4_tolerance_boundary (fp : Int) (ts : List Int) (m : Int)
    (hacc : find_fundamental_period ts = .ok fp)
    (hge : 2 * PulseGroupThreshold + 2 ≤ fp) (hm : 1 ≤ m) :
    quantize fp (m * fp + 200) = .ok m ∧
    quantize fp (m * fp - 200) = .ok m ∧
    quantize fp (m * fp + 201) = .error .toleranceViolation ∧
    quantize fp (m * fp - 201) = .error .toleranceViolation := by
  have hge' : (402 : Int) ≤ fp := by
    simpa [PulseGroupThreshold] using hge
  have hfppos : (0 : Int) < fp := by omega
  have hmfp : fp ≤ m * fp := le_mul_of_one_le_left (by omega) hm
  refine ⟨?_, ?_, ?_, ?_⟩
  · have hp : pyRoundQ (m * fp + 200) fp = m :=
      pyRoundQ_eq (m * fp + 200) fp (fp + 400) m hfppos (by omega) (by ring)
        (by omega) (by omega)
    simp only [quantize, PulseGroupThreshold, hp]
    rw [if_neg (by omega), if_neg (by omega)]
  · have hp : pyRoundQ (m * fp - 200) fp = m :=
      pyRoundQ_eq (m * fp - 200) fp (fp - 400) m hfppos (by omega) (by ring)
        (by omega) (by omega)
    simp only [quantize, PulseGroupThreshold, hp]
    rw [if_neg (by omega), if_neg (by omega)]
  · by_cases h402 : fp = 402
    · subst h402
      have hp : pyRoundQ (m * 402 + 201) 402 = m + 1 :=
        pyRoundQ_eq (m * 402 + 201) 402 0 (m + 1) hfppos (by omega) (by ring)
          (by omega) (by omega)
      simp only [quantize, PulseGroupThreshold, hp]
      rw [if_pos (by omega)]
    · have hp : pyRoundQ (m * fp + 201) fp = m :=
        pyRoundQ_eq (m * fp + 201) fp (fp + 402) m hfppos (by omega) (by ring)
          (by omega) (by omega)
      simp only [quantize, PulseGroupThreshold, hp]
      rw [if_neg (by omega), if_pos (by omega)]
  · have hp : pyRoundQ (m * fp - 201) fp = m :=
      pyRoundQ_eq (m * fp - 201) fp (fp - 402) m hfppos (by omega) (by ring)
        (by omega) (by omega)
    simp only [quantize, PulseGroupThreshold, hp]
    rw [if_pos (by omega)]

/-- Witness for C4 at the estimator-accepted period 402 and multiple 1. -/
theorem c4_witness :
    quantize 402 (1 * 402 + 200) = .ok 1 ∧
    quantize 402 (1 * 402 - 200) = .ok 1 ∧
    quantize 402 (1 * 402 + 201) = .error .toleranceViolation ∧
    quantize 402 (1 * 402 - 201) = .error .toleranceViolation :=
  c4_tolerance_boundary 402 [402, 402, 402, 402, 402] 1 (by decide) (by decide) (by decide)

/-! ## Character and digit-rendering lemmas for the text round-trip -/

theorem pyIsSpace_of_isDigit {c : Char} (h : c.isDigit = true) : pyIsSpace c = false := by
  cases hsp : pyIsSpace c with
  | false => rfl
  | true =>
    have hmem : c = ' ' ∨ c = '\t' ∨ c = '\n' ∨ c = '\r' ∨ c = '\x0b' ∨ c = '\x0c' := by
      simpa [pyIsSpace] using hsp
    rcases hmem with h1 | h1 | h1 | h1 | h1 | h1 <;> subst h1 <;> exact absurd h (by decide)

theorem digitChar_isDigit {n : Nat} (h : n < 10) : (Nat.digitChar n).isDigit = true := by
  interval_cases n <;> decide

theorem digitVal_digitChar {n : Nat} (h : n < 10) : digitVal (Nat.digitChar n) = (n : Int) := by
  interval_cases n <;> decide

theorem natReprAux_digits :
    ∀ fuel n, n < fuel → ∀ ch ∈ natReprAux fuel n, ch.isDigit = true := by
  intro fuel
  induction fuel with
  | zero => intro n hn; omega
  | succ fuel ih =>
    intro n hn ch hch
    unfold natReprAux at hch
    split at hch
    · rename_i h10
      simp only [List.mem_singleton] at hch
      subst hch
      exact digitChar_isDigit h10
    · rename_i h10
      rcases List.mem_append.1 hch with hl | hr
      · exact ih (n / 10) (by omega) ch hl
      · simp only [List.mem_singleton] at hr
        subst hr
        exact digitChar_isDigit (Nat.mod_lt _ (by omega))

theorem natReprAux_ne_nil : ∀ fuel n, n < fuel → natReprAux fuel n ≠ [] := by
  intro fuel
  cases fuel with
  | zero => intro n hn; omega
  | succ fuel =>
    intro n hn
    unfold natReprAux
    split
    · simp
    · simp

theorem natRepr_digits (n : Nat) : ∀ ch ∈ natRepr n, ch.isDigit = true :=
  natReprAux_digits (n + 1) n (by omega)

theorem natRepr_ne_nil (n : Nat) : natRepr n ≠ [] :=
  natReprAux_ne_nil (n + 1) n (by omega)

theorem natReprAux_foldl :
    ∀ fuel n, n < fuel → ∀ a : Int,
      (natReprAux fuel n).foldl (fun x cc => x * 10 + digitVal cc) a =
        a * 10 ^ (natReprAux fuel n).length + (n : Int) := by
  intro fuel
  induction fuel with
  | zero => intro n hn; omega
  | succ fuel ih =>
    intro n hn a
    unfold natReprAux
    split
    · rename_i h10
      simp [List.foldl, digitVal_digitChar h10]
    · rename_i h10
      rw [List.foldl_append, ih (n / 10) (by omega) a, List.length_append]
      simp only [List.foldl, List.length_singleton]
      rw [digitVal_digitChar (Nat.mod_lt _ (by omega))]
      have hdm : (n : Int) = ((n / 10 : Nat) : Int) * 10 + ((n % 10 : Nat) : Int) := by
        have := Nat.div_add_mod n 10
        omega
      rw [pow_succ]
      rw [hdm]
      ring

theorem mem_of_head?_eq {α : Type} {l : List α} {a : α} (h : l.head? = some a) : a ∈ l := by
  cases l with
  | nil => simp at h
  | cons b t =>
    simp only [List.head?_cons, Option.some.injEq] at h
    simp [h]

theorem mem_of_getLast?_eq {α : Type} {l : List α} {a : α} (h : l.getLast? = some a) :
    a ∈ l := by
  cases l with
  | nil => simp at h
  | cons b t =>
    rw [List.getLast?_eq_getLast _ (by simp)] at h
    simp only [Option.some.injEq] at h
    rw [← h]
    exact List.getLast_mem _

theorem natRepr_foldl (n : Nat) (a : Int) :
    (natRepr n).foldl (fun x cc => x * 10 + digitVal cc) a =
      a * 10 ^ (natRepr n).length + (n : Int) :=
  natReprAux_foldl (n + 1) n (by omega) a

theorem parseDigits_natRepr (n : Nat) : parseDigits (natRepr n) = some (n : Int) := by
  unfold parseDigits
  rw [if_neg (natRepr_ne_nil n)]
  rw [if_pos (List.all_eq_true.2 (natRepr_digits n))]
  rw [natRepr_foldl n 0]
  simp

/-! ## Stripping and splitting lemmas -/

theorem dropWhile_eq_self_of_head {p : Char → Bool} {l : List Char}
    (h : ∀ c, l.head? = some c → p c = false) : l.dropWhile p = l := by
  cases l with
  | nil => rfl
  | cons a t => simp [List.dropWhile_cons, h a rfl]

theorem pyStrip_eq_self {l : List Char}
    (h1 : ∀ c, l.head? = some c → pyIsSpace c = false)
    (h2 : ∀ c, l.getLast? = some c → pyIsSpace c = false) : pyStrip l = l := by
  unfold pyStrip
  rw [dropWhile_eq_self_of_head h1]
  rw [dropWhile_eq_self_of_head (fun c hc => h2 c (by rwa [List.head?_reverse] at hc))]
  exact List.reverse_reverse l

theorem pyStrip_concat_space {l : List Char} (hne : l ≠ [])
    (h1 : ∀ c, l.head? = some c → pyIsSpace c = false)
    (h2 : ∀ c, l.getLast? = some c → pyIsSpace c = false) :
    pyStrip (l ++ [' ']) = l := by
  unfold pyStrip
  have hd : (l ++ [' ']).dropWhile pyIsSpace = l ++ [' '] := by
    apply dropWhile_eq_self_of_head
    intro c hc
    cases l with
    | nil => exact absurd rfl hne
    | cons a t =>
      simp only [List.cons_append, List.head?_cons, Option.some.injEq] at hc
      exact hc ▸ h1 a rfl
  rw [hd, List.reverse_append]
  have hsw : ([' '] : List Char).reverse ++ l.reverse = ' ' :: l.reverse := by simp
  have hred : List.dropWhile pyIsSpace (' ' :: l.reverse) = List.dropWhile pyIsSpace l.reverse := by
    simp [List.dropWhile_cons, show pyIsSpace ' ' = true from rfl]
  rw [hsw, hred]
  rw [dropWhile_eq_self_of_head (fun c hc => h2 c (by rwa [List.head?_reverse] at hc))]
  exact List.reverse_reverse l

theorem pyStrip_cons_space {l : List Char}
    (h1 : ∀ c, l.head? = some c → pyIsSpace c = false)
    (h2 : ∀ c, l.getLast? = some c → pyIsSpace c = false) :
    pyStrip (' ' :: l) = l := by
  unfold pyStrip
  have hd : (' ' :: l).dropWhile pyIsSpace = l.dropWhile pyIsSpace := by
    simp [List.dropWhile_cons, show pyIsSpace ' ' = true from rfl]
  rw [hd, dropWhile_eq_self_of_head h1]
  rw [dropWhile_eq_self_of_head (fun c hc => h2 c (by rwa [List.head?_reverse] at hc))]
  exact List.reverse_reverse l

theorem splitOnChar_cons (sep c : Char) (rest : List Char) :
    splitOnChar sep (c :: rest) =
      match splitOnChar sep rest with
      | [] => [[]]
      | p :: ps => if c = sep then [] :: p :: ps else (c :: p) :: ps := rfl

theorem splitOnChar_ne_nil (sep : Char) (l : List Char) : splitOnChar sep l ≠ [] := by
  cases l with
  | nil => simp [splitOnChar]
  | cons c rest =>
    rw [splitOnChar_cons]
    cases hs : splitOnChar sep rest with
    | nil => simp
    | cons p ps =>
      by_cases hc : c = sep <;> simp [hc]

theorem splitOnChar_not_mem {sep : Char} {l : List Char} (h : sep ∉ l) :
    splitOnChar sep l = [l] := by
  induction l with
  | nil => rfl
  | cons c rest ih =>
    have hc : c ≠ sep := fun hh => h (by simp [hh])
    have hrest : sep ∉ rest := fun hh => h (by simp [hh])
    rw [splitOnChar_cons, ih hrest]
    simp [hc]

theorem splitOnChar_append {sep : Char} {l1 l2 : List Char} (h : sep ∉ l1) :
    splitOnChar sep (l1 ++ sep :: l2) = l1 :: splitOnChar sep l2 := by
  induction l1 with
  | nil =>
    simp only [List.nil_append]
    rw [splitOnChar_cons]
    cases hs : splitOnChar sep l2 with
    | nil => exact absurd hs (splitOnChar_ne_nil sep l2)
    | cons p ps => simp
  | cons c l1' ih =>
    have hc : c ≠ sep := fun hh => h (by simp [hh])
    have hl1' : sep ∉ l1' := fun hh => h (by simp [hh])
    simp only [List.cons_append]
    rw [splitOnChar_cons, ih hl1']
    simp [hc]

/-! ## Parsing the rendered fields back -/

theorem pyIntCore_cons (c : Char) (rest : List Char) :
    pyIntCore (c :: rest) =
      if c = '-' then
        match parseDigits rest with
        | some n => .ok (-n)
        | none => .error .malformedText
      else if c = '+' then
        match parseDigits rest with
        | some n => .ok n
        | none => .error .malformedText
      else
        match parseDigits (c :: rest) with
        | some n => .ok n
        | none => .error .malformedText := rfl

theorem pyInt_natRepr (m : Nat) : pyInt (natRepr m) = .ok (m : Int) := by
  obtain ⟨ch, t, hct⟩ := List.exists_cons_of_ne_nil (natRepr_ne_nil m)
  have hch : ch.isDigit = true := natRepr_digits m ch (by rw [hct]; simp)
  have hstrip : pyStrip (natRepr m) = natRepr m := by
    apply pyStrip_eq_self
    · exact fun c hc => pyIsSpace_of_isDigit (natRepr_digits m c (mem_of_head?_eq hc))
    · exact fun c hc => pyIsSpace_of_isDigit (natRepr_digits m c (mem_of_getLast?_eq hc))
  unfold pyInt
  rw [hstrip, hct, pyIntCore_cons]
  rw [if_neg (by intro hh; rw [hh] at hch; exact absurd hch (by decide))]
  rw [if_neg (by intro hh; rw [hh] at hch; exact absurd hch (by decide))]
  rw [← hct, parseDigits_natRepr]

theorem pyInt_intRepr (n : Int) : pyInt (intRepr n) = .ok n := by
  unfold intRepr
  split
  · rename_i hneg
    obtain ⟨ch, t, hct⟩ := List.exists_cons_of_ne_nil (natRepr_ne_nil n.natAbs)
    have hstrip : pyStrip ('-' :: natRepr n.natAbs) = '-' :: natRepr n.natAbs := by
      apply pyStrip_eq_self
      · intro c hc
        simp only [List.head?_cons, Option.some.injEq] at hc
        rw [← hc]
        rfl
      · intro c hc
        rw [hct, List.getLast?_cons_cons] at hc
        exact pyIsSpace_of_isDigit
          (natRepr_digits n.natAbs c (by rw [hct]; exact mem_of_getLast?_eq hc))
    unfold pyInt
    rw [hstrip, pyIntCore_cons]
    rw [if_pos rfl]
    rw [parseDigits_natRepr]
    have hv : -((n.natAbs : Nat) : Int) = n := by omega
    show Except.ok (-((n.natAbs : Nat) : Int)) = Except.ok n
    rw [hv]
  · rename_i hneg
    have h := pyInt_natRepr n.toNat
    rwa [Int.toNat_of_nonneg (by omega)] at h

theorem intRepr_chars (n : Int) : ∀ ch ∈ intRepr n, ch.isDigit = true ∨ ch = '-' := by
  unfold intRepr
  split
  · intro ch hch
    rcases List.mem_cons.1 hch with h | h
    · exact Or.inr h
    · exact Or.inl (natRepr_digits _ ch h)
  · intro ch hch
    exact Or.inl (natRepr_digits _ ch hch)

theorem intRepr_ne_nil (n : Int) : intRepr n ≠ [] := by
  unfold intRepr
  split
  · simp
  · exact natRepr_ne_nil _

theorem intRepr_not_space (n : Int) : ∀ ch ∈ intRepr n, pyIsSpace ch = false := by
  intro ch hch
  rcases intRepr_chars n ch hch with h | h
  · exact pyIsSpace_of_isDigit h
  · rw [h]
    rfl

theorem intRepr_ne_char {n : Int} {c0 : Char} (hd : c0.isDigit = false) (hm : c0 ≠ '-') :
    ∀ ch ∈ intRepr n, ch ≠ c0 := by
  intro ch hch he
  rcases intRepr_chars n ch hch with h | h
  · rw [he] at h
    rw [h] at hd
    cases hd
  · exact hm (by rw [← he, h])

theorem bits_flatten_digits {bits : List Int} (hb : ∀ b ∈ bits, b = 0 ∨ b = 1) :
    ∀ ch ∈ (bits.map intRepr).flatten, ch.isDigit = true := by
  intro ch hch
  rw [List.mem_flatten] at hch
  obtain ⟨l, hl, hchl⟩ := hch
  rw [List.mem_map] at hl
  obtain ⟨b, hbmem, hbl⟩ := hl
  rcases hb b hbmem with h0 | h0 <;> subst h0 <;> rw [← hbl] at hchl
  · rw [show intRepr 0 = ['0'] from rfl, List.mem_singleton] at hchl
    subst hchl
    decide
  · rw [show intRepr 1 = ['1'] from rfl, List.mem_singleton] at hchl
    subst hchl
    decide

theorem parseBits_flatten {bits : List Int} (hb : ∀ b ∈ bits, b = 0 ∨ b = 1) :
    parseBits (bits.map intRepr).flatten = .ok bits := by
  induction bits with
  | nil => rfl
  | cons b rest ih =>
    have hbrest : ∀ x ∈ rest, x = 0 ∨ x = 1 := fun x hx => hb x (by simp [hx])
    rcases hb b (by simp) with h0 | h0 <;> subst h0
    · rw [List.map_cons, List.flatten_cons, show intRepr 0 = ['0'] from rfl]
      show parseBits ('0' :: (rest.map intRepr).flatten) = _
      unfold parseBits
      rw [show pyInt ['0'] = .ok 0 from by decide]
      rw [ih hbrest]
    · rw [List.map_cons, List.flatten_cons, show intRepr 1 = ['1'] from rfl]
      show parseBits ('1' :: (rest.map intRepr).flatten) = _
      unfold parseBits
      rw [show pyInt ['1'] = .ok 1 from by decide]
      rw [ih hbrest]

/-! ## Claim C3: the text round-trip -/

/-- C3: serializing any valid command (whose bitstream is made of 0/1
bits, per the data model) and parsing the text back succeeds and yields
a command equal to it in all four fields. -/
theorem c3_text_roundtrip (c : IRCommand) (hv : validCmd c)
    (hb : ∀ b ∈ c.bits, b = 0 ∨ b = 1) :
    IRCommand.from_string (IRCommand.str c) = .ok c := by
  have hBdig : ∀ ch ∈ c.bitstream, ch.isDigit = true := bits_flatten_digits hb
  have hxA : 'x' ∉ intRepr c.fp :=
    fun hm => intRepr_ne_char (by decide) (by decide) 'x' hm rfl
  have hxB : 'x' ∉ c.bitstream := fun hm => absurd (hBdig 'x' hm) (by decide)
  have hxC : 'x' ∉ intRepr c.interval :=
    fun hm => intRepr_ne_char (by decide) (by decide) 'x' hm rfl
  have hxD : 'x' ∉ intRepr c.repeats :=
    fun hm => intRepr_ne_char (by decide) (by decide) 'x' hm rfl
  have hsA : '/' ∉ intRepr c.fp :=
    fun hm => intRepr_ne_char (by decide) (by decide) '/' hm rfl
  have hsB : '/' ∉ c.bitstream := fun hm => absurd (hBdig '/' hm) (by decide)
  have hsC : '/' ∉ intRepr c.interval :=
    fun hm => intRepr_ne_char (by decide) (by decide) '/' hm rfl
  have hstr : IRCommand.str c =
      tagChars ++ (intRepr c.fp ++ ('/' :: (c.bitstream ++ ('/' ::
        (intRepr c.interval ++ (sepChars ++ (intRepr c.repeats ++ ['>']))))))) := rfl
  have hhead0 : (IRCommand.str c).head? = some '<' := by rw [hstr]; rfl
  have hstr2 : IRCommand.str c =
      (tagChars ++ (intRepr c.fp ++ ('/' :: (c.bitstream ++ ('/' ::
        (intRepr c.interval ++ (' ' :: 'x' :: ' ' :: intRepr c.repeats))))))) ++ ['>'] := by
    rw [hstr]
    simp [sepChars, List.append_assoc]
  have hlast0 : (IRCommand.str c).getLast? = some '>' := by
    rw [hstr2]
    exact List.getLast?_concat _
  have hstrip : pyStrip (IRCommand.str c) = IRCommand.str c := by
    apply pyStrip_eq_self
    · intro cc hcc
      rw [hhead0] at hcc
      injection hcc with h
      rw [← h]
      rfl
    · intro cc hcc
      rw [hlast0] at hcc
      injection hcc with h
      rw [← h]
      rfl
  have htake : (IRCommand.str c).take 12 = tagChars := by
    rw [hstr, show (12 : Nat) = tagChars.length from rfl]
    exact List.take_left _ _
  have hdrop : (IRCommand.str c).drop 12 =
      intRepr c.fp ++ ('/' :: (c.bitstream ++ ('/' ::
        (intRepr c.interval ++ (sepChars ++ (intRepr c.repeats ++ ['>'])))))) := by
    rw [hstr, show (12 : Nat) = tagChars.length from rfl]
    exact List.drop_left _ _
  have hinner : ((IRCommand.str c).drop 12).dropLast =
      intRepr c.fp ++ ('/' :: (c.bitstream ++ ('/' ::
        (intRepr c.interval ++ (' ' :: 'x' :: ' ' :: intRepr c.repeats))))) := by
    rw [hdrop]
    have hre : intRepr c.fp ++ ('/' :: (c.bitstream ++ ('/' ::
        (intRepr c.interval ++ (sepChars ++ (intRepr c.repeats ++ ['>'])))))) =
        (intRepr c.fp ++ ('/' :: (c.bitstream ++ ('/' ::
          (intRepr c.interval ++ (' ' :: 'x' :: ' ' :: intRepr c.repeats)))))) ++ ['>'] := by
      simp [sepChars, List.append_assoc]
    rw [hre, List.dropLast_concat]
  have hbody : intRepr c.fp ++ ('/' :: (c.bitstream ++ ('/' ::
      (intRepr c.interval ++ (' ' :: 'x' :: ' ' :: intRepr c.repeats))))) =
      (intRepr c.fp ++ ('/' :: (c.bitstream ++ ('/' ::
        (intRepr c.interval ++ [' ']))))) ++ 'x' ::
          (' ' :: intRepr c.repeats) := by
    simp [List.append_assoc]
  have hx1 : 'x' ∉ intRepr c.fp ++ ('/' :: (c.bitstream ++ ('/' ::
      (intRepr c.interval ++ [' '])))) := by
    intro hmem
    simp only [List.mem_append, List.mem_cons, List.mem_singleton] at hmem
    rcases hmem with h | h | h | h | h | h
    · exact hxA h
    · exact absurd h (by decide)
    · exact hxB h
    · exact absurd h (by decide)
    · exact hxC h
    · exact absurd h (by decide)
  have hx2 : 'x' ∉ ' ' :: intRepr c.repeats := by
    intro hmem
    rcases List.mem_cons.1 hmem with h | h
    · exact absurd h (by decide)
    · exact hxD h
  have hsplitx : splitOnChar 'x' (intRepr c.fp ++ ('/' :: (c.bitstream ++ ('/' ::
      (intRepr c.interval ++ (' ' :: 'x' :: ' ' :: intRepr c.repeats)))))) =
      [intRepr c.fp ++ ('/' :: (c.bitstream ++ ('/' :: (intRepr c.interval ++ [' '])))),
       ' ' :: intRepr c.repeats] := by
    rw [hbody, splitOnChar_append hx1, splitOnChar_not_mem hx2]
  have hL1split : intRepr c.fp ++ ('/' :: (c.bitstream ++ ('/' ::
      (intRepr c.interval ++ [' '])))) =
      (intRepr c.fp ++ ('/' :: (c.bitstream ++ ('/' :: intRepr c.interval)))) ++ [' '] := by
    simp [List.append_assoc]
  have hL1'alt : intRepr c.fp ++ ('/' :: (c.bitstream ++ ('/' :: intRepr c.interval))) =
      (intRepr c.fp ++ ('/' :: (c.bitstream ++ ['/']))) ++ intRepr c.interval := by
    simp [List.append_assoc]
  have hstripL1 : pyStrip (intRepr c.fp ++ ('/' :: (c.bitstream ++ ('/' ::
      (intRepr c.interval ++ [' ']))))) =
      intRepr c.fp ++ ('/' :: (c.bitstream ++ ('/' :: intRepr c.interval))) := by
    rw [hL1split]
    apply pyStrip_concat_space
    · intro hcon
      exact intRepr_ne_nil c.fp (List.append_eq_nil.1 hcon).1
    · intro cc hcc
      rw [List.head?_append_of_ne_nil _ (intRepr_ne_nil c.fp)] at hcc
      exact intRepr_not_space c.fp cc (mem_of_head?_eq hcc)
    · intro cc hcc
      rw [hL1'alt, List.getLast?_append_of_ne_nil _ (intRepr_ne_nil c.interval)] at hcc
      exact intRepr_not_space c.interval cc (mem_of_getLast?_eq hcc)
  have hsplitslash : splitOnChar '/' (intRepr c.fp ++ ('/' :: (c.bitstream ++ ('/' ::
      intRepr c.interval)))) =
      [intRepr c.fp, c.bitstream, intRepr c.interval] := by
    rw [splitOnChar_append hsA, splitOnChar_append hsB, splitOnChar_not_mem hsC]
  have hstripC : pyStrip (intRepr c.interval) = intRepr c.interval := by
    apply pyStrip_eq_self
    · exact fun cc hcc => intRepr_not_space c.interval cc (mem_of_head?_eq hcc)
    · exact fun cc hcc => intRepr_not_space c.interval cc (mem_of_getLast?_eq hcc)
  have hstripL2 : pyStrip (' ' :: intRepr c.repeats) = intRepr c.repeats := by
    apply pyStrip_cons_space
    · exact fun cc hcc => intRepr_not_space c.repeats cc (mem_of_head?_eq hcc)
    · exact fun cc hcc => intRepr_not_space c.repeats cc (mem_of_getLast?_eq hcc)
  unfold IRCommand.from_string
  rw [hstrip]
  unfold fromStringCore
  rw [if_pos htake, if_pos hlast0, hinner, hsplitx]
  simp only []
  rw [hstripL1, hsplitslash]
  simp only []
  rw [pyInt_intRepr c.fp]
  simp only []
  have hparseB : parseBits c.bitstream = .ok c.bits := parseBits_flatten hb
  rw [hparseB]
  simp only []
  rw [hstripC, pyInt_intRepr c.interval]
  simp only []
  rw [hstripL2, pyInt_intRepr c.repeats]
  simp only []
  exact hv

/-- Witness for C3 at a concrete valid command. -/
theorem c3_witness :
    IRCommand.from_string (IRCommand.str ⟨900, [1, 0, 1, 0, 1], 20000, 2⟩) =
      .ok ⟨900, [1, 0, 1, 0, 1], 20000, 2⟩ :=
  c3_text_roundtrip ⟨900, [1, 0, 1, 0, 1], 20000, 2⟩ (by decide) (by decide)

/-! ## Run-length structure of bitstreams -/

theorem flipBit_ne (q : Int) : flipBit q ≠ q := by
  unfold flipBit
  omega

theorem expandRuns_nil (q : Int) : expandRuns [] q = [] := rfl

theorem expandRuns_cons (r : Nat) (rs : List Nat) (q : Int) :
    expandRuns (r :: rs) q = List.replicate r q ++ expandRuns rs (flipBit q) := rfl

theorem expandRuns_cons_pos {r : Nat} (hr : 0 < r) (rs : List Nat) (q : Int) :
    expandRuns (r :: rs) q = q :: (List.replicate (r - 1) q ++ expandRuns rs (flipBit q)) := by
  rw [expandRuns_cons]
  cases r with
  | zero => omega
  | succ n =>
    rw [List.replicate_succ]
    simp

theorem expandRuns_ne_nil {rs : List Nat} (hne : rs ≠ []) (hpos : ∀ r ∈ rs, 0 < r)
    (q : Int) : expandRuns rs q ≠ [] := by
  cases rs with
  | nil => exact absurd rfl hne
  | cons r rs' =>
    rw [expandRuns_cons_pos (hpos r (by simp)) rs' q]
    simp

theorem runsOf_cons_cons (a b : Int) (rest : List Int) :
    runsOf (a :: b :: rest) =
      if a = b then
        match runsOf (b :: rest) with
        | r :: rs => (r + 1) :: rs
        | [] => [1]
      else 1 :: runsOf (b :: rest) := rfl

theorem runs_spec :
    ∀ (t : List Int) (b : Int), (∀ x ∈ b :: t, x = 0 ∨ x = 1) →
      runsOf (b :: t) ≠ [] ∧ (∀ r ∈ runsOf (b :: t), 0 < r) ∧
        expandRuns (runsOf (b :: t)) b = b :: t := by
  intro t
  induction t with
  | nil =>
    intro b _
    refine ⟨by simp [runsOf], by simp [runsOf], ?_⟩
    show expandRuns [1] b = [b]
    rw [expandRuns_cons, expandRuns_nil]
    simp [List.replicate]
  | cons b2 t2 ih =>
    intro b hx
    have hx2 : ∀ x ∈ b2 :: t2, x = 0 ∨ x = 1 := fun x hm => hx x (by simp [hm])
    obtain ⟨ihne, ihpos, ihexp⟩ := ih b2 hx2
    by_cases hbb : b = b2
    · subst hbb
      obtain ⟨r, rs, hrs⟩ := List.exists_cons_of_ne_nil ihne
      have hrdef : runsOf (b :: b :: t2) = (r + 1) :: rs := by
        rw [runsOf_cons_cons, if_pos rfl, hrs]
      have hrpos : 0 < r := ihpos r (by rw [hrs]; simp)
      refine ⟨by rw [hrdef]; simp, ?_, ?_⟩
      · intro rr hrr
        rw [hrdef] at hrr
        rcases List.mem_cons.1 hrr with h | h
        · omega
        · exact ihpos rr (by rw [hrs]; simp [h])
      · rw [hrdef, expandRuns_cons_pos (by omega) rs b]
        have hsimp : r + 1 - 1 = r := by omega
        rw [hsimp]
        have hrep : List.replicate r b = b :: List.replicate (r - 1) b := by
          cases r with
          | zero => omega
          | succ n =>
            rw [List.replicate_succ]
            simp
        rw [hrep, List.cons_append]
        rw [hrs, expandRuns_cons_pos hrpos rs b] at ihexp
        rw [ihexp]
    · have hrdef : runsOf (b :: b2 :: t2) = 1 :: runsOf (b2 :: t2) := by
        rw [runsOf_cons_cons, if_neg hbb]
      have hflip : flipBit b = b2 := by
        rcases hx b (by simp) with h | h <;> rcases hx2 b2 (by simp) with h2 | h2 <;>
          subst h <;> subst h2 <;> first | rfl | exact absurd rfl hbb
      refine ⟨by rw [hrdef]; simp, ?_, ?_⟩
      · intro rr hrr
        rw [hrdef] at hrr
        rcases List.mem_cons.1 hrr with h | h
        · omega
        · exact ihpos rr h
      · rw [hrdef, expandRuns_cons_pos (by omega) _ b]
        simp only [Nat.sub_self, List.replicate_zero, List.nil_append]
        rw [hflip, ihexp]

/-! ## The timings re-expansion computed on runs -/

theorem timingsLoop_cons (fp b : Int) (bs : List Int) (prev t0 : Int) (ret : List Int) :
    timingsLoop fp (b :: bs) prev t0 ret =
      if b = prev then timingsLoop fp bs prev (t0 + fp) ret
      else timingsLoop fp bs b fp (ret ++ [t0]) := rfl

theorem timingsLoop_replicate (fp : Int) :
    ∀ (r : Nat) (rest : List Int) (prev t0 : Int) (ret : List Int),
      timingsLoop fp (List.replicate r prev ++ rest) prev t0 ret =
        timingsLoop fp rest prev (t0 + (r : Int) * fp) ret := by
  intro r
  induction r with
  | zero =>
    intro rest prev t0 ret
    simp
  | succ n ih =>
    intro rest prev t0 ret
    rw [List.replicate_succ, List.cons_append, timingsLoop_cons, if_pos rfl, ih]
    have harg : t0 + fp + (n : Int) * fp = t0 + ((n + 1 : Nat) : Int) * fp := by
      push_cast
      ring
    rw [harg]

theorem timingsLoop_prev (fp : Int) :
    ∀ (l : List Int) (prev t0 : Int) (ret : List Int),
      (timingsLoop fp l prev t0 ret).2.2 = l.getLastD prev := by
  intro l
  induction l with
  | nil =>
    intro prev t0 ret
    rfl
  | cons b bs ih =>
    intro prev t0 ret
    rw [timingsLoop_cons]
    split
    · rename_i hbp
      rw [ih, List.getLastD_cons, hbp]
    · rw [ih, List.getLastD_cons]

theorem timingsLoop_expand (fp : Int) :
    ∀ (rs : List Nat) (q p t0 : Int) (ret : List Int),
      (∀ r ∈ rs, 0 < r) → q ≠ p →
      (timingsLoop fp (expandRuns rs q) p t0 ret).1 ++
          [(timingsLoop fp (expandRuns rs q) p t0 ret).2.1] =
        ret ++ t0 :: rs.map (fun r : Nat => (r : Int) * fp) := by
  intro rs
  induction rs with
  | nil =>
    intro q p t0 ret _ _
    rfl
  | cons r rs' ih =>
    intro q p t0 ret hpos hqp
    rw [expandRuns_cons_pos (hpos r (by simp)) rs' q]
    rw [timingsLoop_cons, if_neg hqp]
    rw [timingsLoop_replicate fp (r - 1) _ q fp (ret ++ [t0])]
    have harg : fp + ((r - 1 : Nat) : Int) * fp = (r : Int) * fp := by
      have hr := hpos r (by simp)
      have hr1 : ((r - 1 : Nat) : Int) = (r : Int) - 1 := by omega
      rw [hr1]
      ring
    rw [harg]
    rw [ih (flipBit q) q ((r : Int) * fp) (ret ++ [t0])
      (fun rr hrr => hpos rr (by simp [hrr])) (flipBit_ne q)]
    simp

theorem timings_of_valid {c : IRCommand} (hhead : c.bits.head? = some 1)
    (hlast : c.bits.getLast? = some 1) (hb : ∀ x ∈ c.bits, x = 0 ∨ x = 1) :
    c.timings = .ok ((runsOf c.bits).map (fun r : Nat => (r : Int) * c.fp) ++ [c.interval]) := by
  cases hbs : c.bits with
  | nil =>
    rw [hbs] at hhead
    simp at hhead
  | cons b t =>
    have hb1 : b = 1 := by
      rw [hbs] at hhead
      simpa using hhead
    rw [hbs] at hb
    obtain ⟨hne, hpos, hexp⟩ := runs_spec t b hb
    obtain ⟨r1, rs', hrs⟩ := List.exists_cons_of_ne_nil hne
    have hr1pos : 0 < r1 := hpos r1 (by rw [hrs]; simp)
    have hprev : (timingsLoop c.fp c.bits 1 0 []).2.2 = 1 := by
      rw [timingsLoop_prev, List.getLastD_eq_getLast?, hlast]
      rfl
    have hflipb : flipBit b = 0 := by
      rw [hb1]
      rfl
    have hbits_eq : c.bits = List.replicate r1 (1 : Int) ++ expandRuns rs' 0 := by
      rw [hbs, ← hb1, ← hflipb]
      have hrep : List.replicate r1 b = b :: List.replicate (r1 - 1) b := by
        cases r1 with
        | zero => omega
        | succ n =>
          rw [List.replicate_succ]
          simp
      rw [hrep, List.cons_append]
      rw [hrs, expandRuns_cons_pos hr1pos rs' b] at hexp
      exact hexp.symm
    have hTL : timingsLoop c.fp c.bits 1 0 [] =
        timingsLoop c.fp (expandRuns rs' 0) 1 ((r1 : Int) * c.fp) [] := by
      conv_lhs => rw [hbits_eq]
      rw [timingsLoop_replicate c.fp r1 _ 1 0 [], zero_add]
    have h12 : (timingsLoop c.fp c.bits 1 0 []).1 ++
        [(timingsLoop c.fp c.bits 1 0 []).2.1] =
        ((r1 : Int) * c.fp) :: rs'.map (fun r : Nat => (r : Int) * c.fp) := by
      rw [hTL]
      rw [timingsLoop_expand c.fp rs' 0 1 ((r1 : Int) * c.fp) []
        (fun rr hrr => hpos rr (by rw [hrs]; simp [hrr])) (by decide)]
      rw [List.nil_append]
    unfold IRCommand.timings
    rw [if_pos hprev]
    have hshape : (timingsLoop c.fp c.bits 1 0 []).1 ++
        [(timingsLoop c.fp c.bits 1 0 []).2.1, c.interval] =
        ((timingsLoop c.fp c.bits 1 0 []).1 ++
          [(timingsLoop c.fp c.bits 1 0 []).2.1]) ++ [c.interval] := by
      simp
    rw [hshape, h12]
    rw [hrs, List.map_cons]

/-! ## The binarizer computed on runs -/

theorem binLoop_nil (fp : Int) (ret : List (List Int)) (bits : List Int) (bit iv : Int) :
    binLoop fp [] ret bits bit iv = .ok (ret, bits, bit, iv) := rfl

theorem binLoop_cons (fp t : Int) (rest : List Int) (ret : List (List Int))
    (bits : List Int) (bit iv : Int) :
    binLoop fp (t :: rest) ret bits bit iv =
      if MaxPulseLength < t then
        binLoop fp rest (ret ++ [bits]) [] (flipBit bit)
          (if iv = 0 ∨ t < iv then t else iv)
      else
        match quantize fp t with
        | .error e => .error e
        | .ok p =>
          binLoop fp rest ret (bits ++ List.replicate p.toNat (flipBit bit)) (flipBit bit) iv :=
  rfl

theorem pyRoundPos_eq (t d rm q : Int) (hd : 0 < d) (ht : 0 ≤ t)
    (hsplit : 2 * t + d = rm + q * (2 * d)) (hr0 : 0 ≤ rm) (hr1 : rm < 2 * d) :
    pyRoundPos t d = q := by
  unfold pyRoundPos
  rw [if_neg (by omega), hsplit, Int.add_mul_ediv_right _ _ (by omega : 2 * d ≠ 0),
    Int.ediv_eq_zero_of_lt hr0 hr1]
  omega

theorem pyRoundQ_mul {fp : Int} (hfp : fp ≠ 0) (r : Nat) :
    pyRoundQ ((r : Int) * fp) fp = (r : Int) := by
  have hr0 : (0 : Int) ≤ (r : Int) := Int.natCast_nonneg r
  rcases lt_or_gt_of_ne hfp with hneg | hpos
  · unfold pyRoundQ
    rw [if_pos hneg]
    rw [show -((r : Int) * fp) = (r : Int) * (-fp) by ring]
    exact pyRoundPos_eq ((r : Int) * (-fp)) (-fp) (-fp) (r : Int) (by omega)
      (mul_nonneg hr0 (by omega)) (by ring) (by omega) (by omega)
  · unfold pyRoundQ
    rw [if_neg (by omega)]
    exact pyRoundPos_eq ((r : Int) * fp) fp fp (r : Int) (by omega)
      (mul_nonneg hr0 (by omega)) (by ring) (by omega) (by omega)

theorem quantize_mul {fp : Int} (hfp : fp ≠ 0) (r : Nat) :
    quantize fp ((r : Int) * fp) = .ok (r : Int) := by
  unfold quantize
  rw [pyRoundQ_mul hfp r]
  rw [if_neg (by simp only [PulseGroupThreshold]; omega)]
  rw [if_neg (by simp only [PulseGroupThreshold]; omega)]

theorem binLoop_append (fp : Int) :
    ∀ (l1 l2 : List Int) (ret : List (List Int)) (bits : List Int) (bit iv : Int),
      binLoop fp (l1 ++ l2) ret bits bit iv =
        match binLoop fp l1 ret bits bit iv with
        | .error e => .error e
        | .ok (r2, b2, bt2, iv2) => binLoop fp l2 r2 b2 bt2 iv2 := by
  intro l1
  induction l1 with
  | nil =>
    intro l2 ret bits bit iv
    rfl
  | cons t rest ih =>
    intro l2 ret bits bit iv
    rw [List.cons_append, binLoop_cons, binLoop_cons]
    split
    · exact ih l2 _ _ _ _
    · cases hq : quantize fp t with
      | error e => rfl
      | ok p =>
        simp only []
        exact ih l2 _ _ _ _

theorem binLoop_runs {fp : Int} (hfp : fp ≠ 0) :
    ∀ (rs : List Nat), (∀ r ∈ rs, 0 < r ∧ (r : Int) * fp ≤ MaxPulseLength) →
      ∀ (ret : List (List Int)) (acc : List Int) (bit iv : Int),
        binLoop fp (rs.map (fun r : Nat => (r : Int) * fp)) ret acc bit iv =
          .ok (ret, acc ++ expandRuns rs (flipBit bit), flipIter rs.length bit, iv) := by
  intro rs
  induction rs with
  | nil =>
    intro _ ret acc bit iv
    simp [binLoop_nil, expandRuns_nil, flipIter]
  | cons r rs' ih =>
    intro hcond ret acc bit iv
    rw [List.map_cons, binLoop_cons]
    rw [if_neg (not_lt.2 (hcond r (by simp)).2)]
    rw [quantize_mul hfp r]
    simp only []
    rw [ih (fun rr hrr => hcond rr (by simp [hrr])) ret
      (acc ++ List.replicate ((r : Int)).toNat (flipBit bit)) (flipBit bit) iv]
    rw [expandRuns_cons]
    simp [flipIter, List.append_assoc]

theorem binarify_of_runs {fp : Int} (hfp : fp ≠ 0) {rs : List Nat} (hrsne : rs ≠ [])
    (hcond : ∀ r ∈ rs, 0 < r ∧ (r : Int) * fp ≤ MaxPulseLength) {interval : Int}
    (hiv : MaxPulseLength < interval) :
    binarify_signal fp ((rs.map (fun r : Nat => (r : Int) * fp)) ++ [interval]) =
      .ok ([expandRuns rs 1], interval) := by
  have hEne : expandRuns rs 1 ≠ [] :=
    expandRuns_ne_nil hrsne (fun r hr => (hcond r hr).1) 1
  unfold binarify_signal
  rw [binLoop_append]
  rw [binLoop_runs hfp rs hcond [] [] 0 0]
  simp only [List.nil_append]
  rw [show flipBit 0 = (1 : Int) from rfl]
  rw [binLoop_cons, if_pos hiv, if_pos (Or.inl rfl), binLoop_nil]
  simp only [List.nil_append]
  simp only [if_true]
  unfold binPost
  rw [if_neg (by simp)]
  rw [if_pos (by simp [List.isEmpty_iff, hEne])]

/-! ## The estimator never returns a zero period -/

theorem find_fp_ne_zero {ts : List Int} {fp : Int}
    (h : find_fundamental_period ts = .ok fp) : fp ≠ 0 := by
  unfold find_fundamental_period at h
  split at h
  · simp at h
  · split at h
    · simp at h
    · split at h
      · simp at h
      · split at h
        · simp at h
        · split at h
          · rename_i hcond
            split at h
            · simp at h
            · injection h with h'
              intro h0
              rw [h0] at h'
              rw [h'] at hcond
              exact absurd hcond (by decide)
          · simp at h

/-! ## Claim C1: the decode round-trip -/

theorem runs_of_bits {bits : List Int} (hne : bits ≠ []) (hhead : bits.head? = some 1)
    (hb : ∀ x ∈ bits, x = 0 ∨ x = 1) :
    runsOf bits ≠ [] ∧ (∀ r ∈ runsOf bits, 0 < r) ∧
      expandRuns (runsOf bits) 1 = bits := by
  cases hbs : bits with
  | nil => exact absurd hbs hne
  | cons b t =>
    rw [hbs] at hhead hb
    have hb1 : b = 1 := by simpa using hhead
    obtain ⟨h1, h2, h3⟩ := runs_spec t b hb
    subst hb1
    exact ⟨h1, h2, h3⟩

/-- C1 (amended): for every valid `IRCommand c` with 0/1 bits and
`repeats = 1` whose interval exceeds `MaxPulseLength`, whose re-expanded
pulses (all of `c.timings()` except the trailing interval) are at most
`MaxPulseLength`, and whose re-expanded timing sequence makes
`find_fundamental_period` return `c.fp`, running the full decoder on
that sequence succeeds and reproduces `c` exactly — in particular
`c.bits` and `c.fp`.  (The extra hypotheses are forced by the
counterexample: the decoder's groups-to-samples ratio assertion, among
others, rejects many valid commands' re-expansions.) -/
theorem c1_decode_roundtrip (c : IRCommand) (ts : List Int)
    (hv : validCmd c) (hb : ∀ b ∈ c.bits, b = 0 ∨ b = 1) (hrep : c.repeats = 1)
    (hts : IRCommand.timings c = .ok ts)
    (hfp : find_fundamental_period ts = .ok c.fp)
    (hmax : ∀ t ∈ ts.dropLast, t ≤ MaxPulseLength)
    (hiv : MaxPulseLength < c.interval) :
    IRCommand.from_timings ts = .ok c := by
  obtain ⟨-, hhead, hlast⟩ := mkIRCommand_ok_destruct hv
  have hbne : c.bits ≠ [] := by
    intro h0
    rw [h0] at hhead
    simp at hhead
  have htv := timings_of_valid hhead hlast hb
  rw [hts] at htv
  injection htv with hts_eq
  subst hts_eq
  have hfp0 : c.fp ≠ 0 := find_fp_ne_zero hfp
  obtain ⟨hrne, hrpos, hrexp⟩ := runs_of_bits hbne hhead hb
  rw [List.dropLast_concat] at hmax
  have hcond : ∀ r ∈ runsOf c.bits, 0 < r ∧ (r : Int) * c.fp ≤ MaxPulseLength := by
    intro r hr
    exact ⟨hrpos r hr, hmax _ (List.mem_map_of_mem _ hr)⟩
  have hbin := binarify_of_runs hfp0 hrne hcond hiv
  rw [hrexp] at hbin
  unfold IRCommand.from_timings
  rw [hfp]
  simp only []
  rw [hbin]
  simp only []
  rw [if_pos List.all_nil]
  simp only [List.length_nil, Nat.cast_zero, zero_add]
  rw [← hrep]
  exact hv

/-- Witness for C1 at a concrete five-bit command. -/
theorem c1_witness :
    IRCommand.from_timings [900, 900, 900, 900, 900, 20000] =
      .ok ⟨900, [1, 0, 1, 0, 1], 20000, 1⟩ :=
  c1_decode_roundtrip ⟨900, [1, 0, 1, 0, 1], 20000, 1⟩ [900, 900, 900, 900, 900, 20000]
    (by decide) (by decide) (by decide) (by decide) (by decide) (by decide) (by decide)

end IRDecode
